import Mathlib

/-!
Verification of the aviation-manual ingestion pipeline
(`aviation_manual_processor.py` and `ingest_aviation_manuals.py`):
text normalization, word-level chunking with overlap, regex-based
metadata extraction, and per-page document construction.

The two Python scripts are embedded in the namespaces
`Processor` (for `aviation_manual_processor.py`) and
`Ingest` (for `ingest_aviation_manuals.py`).
External collaborators (PyPDF2 extraction, the embedding model,
Elasticsearch) are outside the embedding: the pipeline is modelled
from the raw per-page texts onward, and documents carry every field
the Python code computes from its pure inputs (the embedding vector
and the random uuid, produced by external capabilities, are omitted).

The Python `while` loop in `chunk_text` is embedded with explicit
fuel: `none` means the fuel ran out, i.e. the loop performed more
iterations than the fuel allows; the termination theorem shows fuel
`words.length + 1` always suffices when `overlap < max_words`, and
the divergence theorem shows no amount of fuel suffices on an
invalid configuration.
-/

set_option maxRecDepth 10000

namespace AviationRag

/-- ASCII whitespace, as recognized by Python's `str.split()`, `str.strip()`
and the regex class `\s` (space, tab, newline, carriage return,
vertical tab, form feed). -/
def isSpace (c : Char) : Bool :=
  c = ' ' || c = '\t' || c = '\n' || c = '\r' || c = '\x0b' || c = '\x0c'

/-- Helper for `splitWords`: accumulates the current word (reversed). -/
def wordsAux : List Char → List Char → List String
  | [], acc => if acc.isEmpty then [] else [String.mk acc.reverse]
  | c :: cs, acc =>
    if isSpace c then
      if acc.isEmpty then wordsAux cs []
      else String.mk acc.reverse :: wordsAux cs []
    else wordsAux cs (c :: acc)

/-- Python `text.split()`: split on runs of whitespace, discarding
empty pieces. -/
def splitWords (s : String) : List String :=
  wordsAux s.data []

/-- Python `" ".join(words[s:e])`: the word range `[s, e)` joined by
single spaces. -/
def sliceJoin (words : List String) (s e : Nat) : String :=
  String.intercalate " " ((words.drop s).take (e - s))

namespace Ingest

/-- The `while start < len(words)` loop of `chunk_text` in
`ingest_aviation_manuals.py`, with explicit fuel.  Each iteration emits
`" ".join(words[start:end])` for `end = min(start + max_tokens, len(words))`,
stops after emitting a range that reaches the end of the word sequence,
and otherwise continues from `end - overlap`. -/
def chunkLoop (words : List String) (max_tokens overlap : Nat) :
    Nat → Nat → Option (List String)
  | 0, _ => none
  | fuel + 1, start =>
    if start < words.length then
      let e := min (start + max_tokens) words.length
      let chunk := sliceJoin words start e
      if words.length ≤ e then
        some [chunk]
      else
        match chunkLoop words max_tokens overlap fuel (e - overlap) with
        | some rest => some (chunk :: rest)
        | none => none
    else
      some []

/-- `chunk_text` from `ingest_aviation_manuals.py`: split into words,
run the overlapping-window loop, then drop every chunk whose
whitespace-delimited word count is at most 50. -/
def chunk_text (text : String) (max_tokens overlap : Nat) :
    Option (List String) :=
  let words := splitWords text
  match chunkLoop words max_tokens overlap (words.length + 1) 0 with
  | some chunks => some (chunks.filter (fun c => 50 < (splitWords c).length))
  | none => none

end Ingest

namespace Processor

/-- The `while start < len(words)` loop of `chunk_text` in
`aviation_manual_processor.py`, with explicit fuel (same loop body as the
ingest script, with the bound parameter named `max_words`). -/
def chunkLoop (words : List String) (max_words overlap : Nat) :
    Nat → Nat → Option (List String)
  | 0, _ => none
  | fuel + 1, start =>
    if start < words.length then
      let e := min (start + max_words) words.length
      let chunk := sliceJoin words start e
      if words.length ≤ e then
        some [chunk]
      else
        match chunkLoop words max_words overlap fuel (e - overlap) with
        | some rest => some (chunk :: rest)
        | none => none
    else
      some []

/-- `chunk_text` from `aviation_manual_processor.py`. -/
def chunk_text (text : String) (max_words overlap : Nat) :
    Option (List String) :=
  let words := splitWords text
  match chunkLoop words max_words overlap (words.length + 1) 0 with
  | some chunks => some (chunks.filter (fun c => 50 < (splitWords c).length))
  | none => none

end Processor

/-! ## Whitespace normalization

Both scripts normalize extracted page text with
`re.sub(r"\s+", " ", text).strip()`: every maximal run of whitespace
is replaced by a single space, then leading/trailing whitespace is
stripped. -/

/-- One pass of `re.sub(r"\s+", " ", ·)` over the characters: the flag
records whether the previous character belonged to a whitespace run
(in which case further whitespace of the same run is dropped). -/
def collapseAux : Bool → List Char → List Char
  | _, [] => []
  | prevSpace, c :: cs =>
    if isSpace c then
      if prevSpace then collapseAux true cs
      else ' ' :: collapseAux true cs
    else c :: collapseAux false cs

/-- Python `str.strip()` on a character list: drop whitespace from both
ends. -/
def stripChars (cs : List Char) : List Char :=
  ((cs.dropWhile isSpace).reverse.dropWhile isSpace).reverse

/-- Python `s.strip()`. -/
def stripStr (s : String) : String :=
  String.mk (stripChars s.data)

/-- `re.sub(r"\s+", " ", text).strip()`, the normalization applied to
every extracted page in both scripts. -/
def normalize (s : String) : String :=
  String.mk (stripChars (collapseAux false s.data))

/-! ## Regex matchers

The scripts use `re.search` with fixed patterns.  Each pattern is
embedded as a matcher that, applied at a given position (a suffix of
the text), returns the length of the match there, or `none`.
`re.search` semantics — return the match at the leftmost position
where the pattern matches — is `searchAt`.  Greedy sub-matches are
modelled directly by maximal `takeWhile`/`dropWhile` runs: for these
particular patterns a shorter run can never enable a later literal
(whitespace, digits, and the literals that follow them are in
disjoint character classes), so the regex engine never backtracks
across them — except for the trailing word-boundary of the
part-number pattern, which is modelled by explicit backtracking in
`bestEndRev`. -/

/-- Case-insensitive literal match (the scripts pass `re.IGNORECASE`):
consumes the pattern from the input, returns the rest. -/
def matchCI : List Char → List Char → Option (List Char)
  | [], cs => some cs
  | _ :: _, [] => none
  | p :: ps, c :: cs =>
    if p.toLower = c.toLower then matchCI ps cs else none

/-- `\d{2}`: exactly two ASCII digits. -/
def matchD2 : List Char → Option (List Char)
  | c1 :: c2 :: cs => if c1.isDigit && c2.isDigit then some cs else none
  | _ => none

/-- Matcher for `ATA\s*Chapter\s*\d{2}` (with `re.IGNORECASE`),
the first pattern of `infer_chapter` in `ingest_aviation_manuals.py`. -/
def ataChapterAt (cs : List Char) : Option Nat :=
  match matchCI "ata".data cs with
  | none => none
  | some r1 =>
    match matchCI "chapter".data (r1.dropWhile isSpace) with
    | none => none
    | some r3 =>
      match matchD2 (r3.dropWhile isSpace) with
      | none => none
      | some r5 => some (cs.length - r5.length)

/-- Matcher for `ATA\s*\d{2}` (with `re.IGNORECASE`),
the second pattern of `infer_chapter`. -/
def ataBareAt (cs : List Char) : Option Nat :=
  match matchCI "ata".data cs with
  | none => none
  | some r1 =>
    match matchD2 (r1.dropWhile isSpace) with
    | none => none
    | some r5 => some (cs.length - r5.length)

/-- Matcher for `ATA\s*(?:Chapter\s*)?\d{2}` (with `re.IGNORECASE`),
the single combined pattern of `extract_metadata` in
`aviation_manual_processor.py`.  The optional group is greedy: the
engine first tries to take `Chapter\s*` and falls back to skipping it
(backtracking over the optional group) when no two digits follow. -/
def ataCombinedAt (cs : List Char) : Option Nat :=
  match matchCI "ata".data cs with
  | none => none
  | some r1 =>
    let r2 := r1.dropWhile isSpace
    match (match matchCI "chapter".data r2 with
           | some r3 => matchD2 (r3.dropWhile isSpace)
           | none => none) with
    | some r5 => some (cs.length - r5.length)
    | none =>
      match matchD2 r2 with
      | some r5 => some (cs.length - r5.length)
      | none => none

/-- Character class `[A-Za-z0-9\-\s]` of the section pattern. -/
def isSecChar (c : Char) : Bool :=
  c.isAlpha || c.isDigit || c = '-' || isSpace c

/-- Matcher for `SECTION\s+\d+[\.\d]*\s*[:\-]\s*[A-Z][A-Za-z0-9\-\s]+`
(with `re.IGNORECASE`, so `[A-Z]` matches any ASCII letter), used by
`infer_section` and `extract_metadata`. -/
def sectionAt (cs : List Char) : Option Nat :=
  match matchCI "section".data cs with
  | none => none
  | some r1 =>
    if (r1.takeWhile isSpace).isEmpty then none
    else
      let r2 := r1.dropWhile isSpace
      if (r2.takeWhile Char.isDigit).isEmpty then none
      else
        let r3 := r2.dropWhile Char.isDigit
        let r4 := r3.dropWhile (fun c => c = '.' || c.isDigit)
        match r4.dropWhile isSpace with
        | [] => none
        | sep :: r6 =>
          if sep = ':' || sep = '-' then
            match r6.dropWhile isSpace with
            | [] => none
            | a :: r8 =>
              if a.isAlpha then
                if (r8.takeWhile isSecChar).isEmpty then none
                else some (cs.length - (r8.dropWhile isSecChar).length)
              else none
          else none

/-- `re.search`: try the matcher at every position from the left,
return the matched substring of the first position that succeeds. -/
def searchAt (matchAt : List Char → Option Nat) :
    List Char → Option (List Char)
  | [] =>
    match matchAt [] with
    | some n => some (List.take n [])
    | none => none
  | c :: cs =>
    match matchAt (c :: cs) with
    | some n => some (List.take n (c :: cs))
    | none => searchAt matchAt cs

/-- `re.search` on a string, returning the matched text (`group(0)`). -/
def searchStr (matchAt : List Char → Option Nat) (s : String) :
    Option String :=
  (searchAt matchAt s.data).map String.mk

/-! ### The part-number pattern `\b([A-Z]{2,}-[A-Z0-9]{2,}[A-Z0-9\-]*)\b`

This pattern (no `IGNORECASE`) needs word boundaries, hence the
previous character is threaded through the search, and the trailing
`\b` can force the engine to backtrack the greedy `[A-Z0-9\-]*`
(and `[A-Z0-9]{2,}`) tail: the engine accepts the longest end
position of the combined tail run at which a word boundary holds. -/

/-- Python regex word characters `[A-Za-z0-9_]` (ASCII). -/
def isWordChar (c : Char) : Bool := c.isAlpha || c.isDigit || c = '_'

/-- Character class `[A-Z0-9]`. -/
def isUpperDigit (c : Char) : Bool := c.isUpper || c.isDigit

/-- Character class `[A-Z0-9\-]`. -/
def isPartChar (c : Char) : Bool := c.isUpper || c.isDigit || c = '-'

/-- `\b` between a last matched character and the rest of the input:
a word boundary holds iff exactly one side is a word character
(at end of input, iff the last character is a word character). -/
def boundaryOk (last : Char) (rest : List Char) : Bool :=
  match rest with
  | [] => isWordChar last
  | c :: _ => isWordChar last != isWordChar c

/-- Given the reversed tail region (all characters in `[A-Z0-9\-]`)
and the input following the region, return the largest end offset
into the region at which `\b` holds — the end position the
backtracking regex engine settles on. -/
def bestEndRev : List Char → List Char → Option Nat
  | [], _ => none
  | c :: rs, rest =>
    if boundaryOk c rest then some (rs.length + 1)
    else bestEndRev rs (c :: rest)

/-- The part-number pattern applied at one position, given the
character just before that position (`none` at the start of the
input). -/
def partAt (prev : Option Char) (cs : List Char) : Option Nat :=
  let prevOk :=
    match prev with
    | none => true
    | some c => !isWordChar c
  if !prevOk then none
  else
    let u := cs.takeWhile Char.isUpper
    if u.length < 2 then none
    else
      match cs.dropWhile Char.isUpper with
      | '-' :: r2 =>
        let region := r2.takeWhile isPartChar
        let rest := r2.dropWhile isPartChar
        match region with
        | a :: b :: _ =>
          if isUpperDigit a && isUpperDigit b then
            match bestEndRev region.reverse rest with
            | some e =>
              if 2 ≤ e then some (u.length + 1 + e) else none
            | none => none
          else none
        | _ => none
      | _ => none

/-- `re.search` for the part-number pattern, threading the previous
character for the leading `\b`. -/
def searchPartFrom : Option Char → List Char → Option (List Char)
  | prev, [] =>
    match partAt prev [] with
    | some n => some (List.take n [])
    | none => none
  | prev, c :: cs =>
    match partAt prev (c :: cs) with
    | some n => some (List.take n (c :: cs))
    | none => searchPartFrom (some c) cs

namespace Ingest

/-- `infer_section` from `ingest_aviation_manuals.py`: two patterns are
tried in order; both are compiled with `re.IGNORECASE` and differ only
in the casing of the literal `SECTION`/`Section`, so both have the
matcher `sectionAt`.  First match wins, stripped; no match yields `""`. -/
def infer_section (text : String) : String :=
  match searchStr sectionAt text with
  | some m => stripStr m
  | none =>
    match searchStr sectionAt text with
    | some m => stripStr m
    | none => ""

/-- `infer_chapter` from `ingest_aviation_manuals.py`: the pattern
`ATA\s*Chapter\s*\d{2}` is tried before `ATA\s*\d{2}`; the first
pattern that matches anywhere wins, stripped; no match yields `""`. -/
def infer_chapter (text : String) : String :=
  match searchStr ataChapterAt text with
  | some m => stripStr m
  | none =>
    match searchStr ataBareAt text with
    | some m => stripStr m
    | none => ""

/-- `infer_part_number` from `ingest_aviation_manuals.py`
(`m.group(1)` equals the whole match, as the group spans the whole
pattern between the zero-width boundaries; no strip). -/
def infer_part_number (text : String) : String :=
  match (searchPartFrom none text.data).map String.mk with
  | some m => m
  | none => ""

end Ingest

namespace Processor

/-- The result dictionary of `extract_metadata` in
`aviation_manual_processor.py`. -/
structure Metadata where
  «section» : String
  ata_chapter : String
  part_number : String
deriving DecidableEq

/-- `extract_metadata` from `aviation_manual_processor.py`: one
section pattern, one combined ATA pattern (`ATA\s*(?:Chapter\s*)?\d{2}`),
one part-number pattern; each `re.search` result or `""`. -/
def extract_metadata (text : String) : Metadata :=
  { «section» :=
      match searchStr sectionAt text with
      | some m => stripStr m
      | none => ""
    ata_chapter :=
      match searchStr ataCombinedAt text with
      | some m => stripStr m
      | none => ""
    part_number :=
      match (searchPartFrom none text.data).map String.mk with
      | some m => m
      | none => "" }

end Processor

/-! ## Ingestion pipeline

`index_pdf` is modelled from the raw per-page extracted texts onward
(PDF reading itself is the external PyPDF2 capability; `page.extract_text()
or ""` supplies one string per PDF page).  The embedding vector and the
random uuid of each document come from external capabilities and are
omitted from the document model; every other `_source` field is kept. -/

/-- A non-empty extracted page: `{"page": i, "text": text}`. -/
structure Page where
  page : Nat
  text : String
deriving DecidableEq

namespace Ingest

/-- The `for i, page in enumerate(reader.pages, start=1)` loop of
`extract_text_by_page`: normalize each raw page text and keep the
non-empty ones, with their 1-based page numbers. -/
def extractAux (i : Nat) : List String → List Page
  | [] => []
  | raw :: rest =>
    let t := normalize raw
    if t = "" then extractAux (i + 1) rest
    else { page := i, text := t } :: extractAux (i + 1) rest

/-- `extract_text_by_page` from `ingest_aviation_manuals.py`, as a
function of the raw per-page texts produced by the external PDF
extractor. -/
def extract_text_by_page (rawPages : List String) : List Page :=
  extractAux 1 rawPages

/-- One element of the `actions` list of `index_pdf` (the `_source`
dictionary, minus the externally produced embedding vector and uuid). -/
structure IndexedDoc where
  content : String
  «section» : String
  chapter : String
  part_number : String
  manual_id : String
  page : Nat
deriving DecidableEq

/-- The per-page body of the `for p in pages` loop of `index_pdf`:
metadata is extracted once from the page text, then every chunk
becomes one document carrying that shared metadata.  The `none`
branch of `chunk_text` is unreachable at the configuration used here
(overlap 120 < max_tokens 800, see the termination theorem). -/
def pageDocs (manual_id : String) (p : Page) : List IndexedDoc :=
  let «section» := infer_section p.text
  let chapter := infer_chapter p.text
  let part_number := infer_part_number p.text
  match chunk_text p.text 800 120 with
  | some chunks =>
    chunks.map (fun chunk =>
      { content := chunk, «section» := «section», chapter := chapter,
        part_number := part_number, manual_id := manual_id, page := p.page })
  | none => []

/-- `index_pdf` from `ingest_aviation_manuals.py`, as a function of the
raw per-page texts.  The Python function returns `None`; its observable
outputs are the `actions` batch handed to `helpers.bulk` and the two
printed counts `chunk_count` and `len(pages)`, returned here as a
triple `(actions, chunk_count, page_count)`. -/
def index_pdf (rawPages : List String) (manual_id : String) :
    List IndexedDoc × Nat × Nat :=
  let pages := extract_text_by_page rawPages
  let actions := (pages.map (pageDocs manual_id)).flatten
  (actions, actions.length, pages.length)

end Ingest

namespace Processor

/-- The page loop of `parse_pdf` in `aviation_manual_processor.py`.
Note the difference from the ingest script: the emptiness test
(`if text:`) is on the raw extracted text, before whitespace cleaning,
so a whitespace-only raw page is kept with empty normalized text. -/
def parseAux (i : Nat) : List String → List Page
  | [] => []
  | raw :: rest =>
    if raw = "" then parseAux (i + 1) rest
    else { page := i, text := normalize raw } :: parseAux (i + 1) rest

/-- `parse_pdf` from `aviation_manual_processor.py`, as a function of
the raw per-page texts produced by the external PDF extractor. -/
def parse_pdf (rawPages : List String) : List Page :=
  parseAux 1 rawPages

/-- One element of the `documents` list of `process_manual` (the
`_source` dictionary, minus the externally produced embedding vector
and uuid). -/
structure ProcDoc where
  content : String
  page : Nat
  «section» : String
  ata_chapter : String
  part_number : String
  manual_id : String
deriving DecidableEq

/-- The per-page body of the `for page_data in pages` loop of
`process_manual`: metadata is extracted once from the page text, then
every chunk becomes one document carrying that shared metadata.
`chunk_text` is called with its default configuration
(`max_words=800`, `overlap=120`); the `none` branch is unreachable
there. -/
def procPageDocs (manual_id : String) (p : Page) : List ProcDoc :=
  let metadata := extract_metadata p.text
  match chunk_text p.text 800 120 with
  | some chunks =>
    chunks.map (fun chunk =>
      { content := chunk, page := p.page, «section» := metadata.«section»,
        ata_chapter := metadata.ata_chapter,
        part_number := metadata.part_number, manual_id := manual_id })
  | none => []

/-- `process_manual` from `aviation_manual_processor.py`, as a function
of the raw per-page texts: the `documents` batch handed to
`helpers.bulk` together with the printed count `len(documents)`. -/
def process_manual (rawPages : List String) (manual_id : String) :
    List ProcDoc × Nat :=
  let pages := parse_pdf rawPages
  let documents := (pages.map (procPageDocs manual_id)).flatten
  (documents, documents.length)

end Processor

/-! ## Analysis definitions

`chunkLoopR` mirrors the chunking loop at the level of word-index
ranges `(start, end)`; the loop over chunk strings is its image under
`sliceJoin` (proved below).  It is the vehicle for counting chunks and
stating the overlap of consecutive word ranges. -/

/-- The chunking loop at the level of word-index ranges: emits
`(start, min (start + M) L)` and continues from `end - O`. -/
def chunkLoopR (L M O : Nat) : Nat → Nat → Option (List (Nat × Nat))
  | 0, _ => none
  | fuel + 1, start =>
    if start < L then
      let e := min (start + M) L
      if L ≤ e then
        some [(start, e)]
      else
        match chunkLoopR L M O fuel (e - O) with
        | some rest => some ((start, e) :: rest)
        | none => none
    else
      some []

/-- The half-open word ranges `a` and `b` are consecutive windows whose
intersection has exactly `O` elements: `b` starts inside `a`, ends no
earlier, and `[b.1, a.2)` has size `O`. -/
def overlapsBy (O : Nat) (a b : Nat × Nat) : Prop :=
  a.1 ≤ b.1 ∧ b.1 ≤ a.2 ∧ a.2 ≤ b.2 ∧ a.2 - b.1 = O

instance (O : Nat) : DecidableRel (overlapsBy O) := fun a b => by
  unfold overlapsBy; infer_instance

/-! ## Chunking lemmas -/

/-- The chunking loops of the two scripts are the same function. -/
lemma chunkLoop_eq (words : List String) (M O : Nat) :
    ∀ fuel start, Processor.chunkLoop words M O fuel start =
      Ingest.chunkLoop words M O fuel start := by
  intro fuel
  induction fuel with
  | zero => intro start; rfl
  | succ n ih =>
    intro start
    simp only [Processor.chunkLoop, Ingest.chunkLoop, ih]

/-- The two `chunk_text` functions are extensionally equal. -/
lemma chunk_text_eq (text : String) (M O : Nat) :
    Processor.chunk_text text M O = Ingest.chunk_text text M O := by
  simp only [Processor.chunk_text, Ingest.chunk_text, chunkLoop_eq]

/-- The string-producing loop is the range-producing loop followed by
slicing-and-joining each range. -/
lemma chunkLoop_eq_ranges (words : List String) (M O : Nat) :
    ∀ fuel start, Ingest.chunkLoop words M O fuel start =
      (chunkLoopR words.length M O fuel start).map
        (List.map (fun r => sliceJoin words r.1 r.2)) := by
  intro fuel
  induction fuel with
  | zero => intro start; rfl
  | succ n ih =>
    intro start
    simp only [Ingest.chunkLoop, chunkLoopR]
    by_cases h1 : start < words.length
    · simp only [if_pos h1]
      by_cases h2 : words.length ≤ min (start + M) words.length
      · simp [h2]
      · simp only [if_neg h2, ih]
        cases chunkLoopR words.length M O n (min (start + M) words.length - O) with
        | none => simp
        | some rest => simp
    · simp [if_neg h1]

/-- With a valid configuration (`overlap < max_tokens`), fuel exceeding
the remaining word count suffices: the loop terminates because the
cursor strictly advances by `max_tokens - overlap ≥ 1` words on every
iteration that does not emit the final range. -/
lemma chunkLoop_isSome (words : List String) (M O : Nat) (hMO : O < M) :
    ∀ fuel start, words.length - start < fuel →
      (Ingest.chunkLoop words M O fuel start).isSome := by
  intro fuel
  induction fuel with
  | zero => intro start h; omega
  | succ n ih =>
    intro start h
    simp only [Ingest.chunkLoop]
    by_cases h1 : start < words.length
    · simp only [if_pos h1]
      by_cases h2 : words.length ≤ min (start + M) words.length
      · simp [h2]
      · have he : min (start + M) words.length = start + M := by omega
        rw [he] at h2 ⊢
        simp only [if_neg h2]
        have hrec := ih (start + M - O) (by omega)
        cases hx : Ingest.chunkLoop words M O n (start + M - O) with
        | none => rw [hx] at hrec; simp at hrec
        | some rest => simp
    · simp [if_neg h1]

/-- Full specification of the range loop under the precondition
`O < M`, for a cursor strictly inside the word sequence: the loop
returns, its first range starts at the cursor, the number of emitted
ranges follows the ceiling formula, and every pair of consecutive
ranges overlaps by exactly `O` word indices. -/
lemma chunkLoopR_spec (L M O : Nat) (hMO : O < M) :
    ∀ fuel start, start < L → L - start < fuel →
      ∃ rs, chunkLoopR L M O fuel start = some rs ∧
        rs.head? = some (start, min (start + M) L) ∧
        rs.length =
          (if start + M < L then (L - start - O + (M - O) - 1) / (M - O)
           else 1) ∧
        rs.Chain' (overlapsBy O) := by
  intro fuel
  induction fuel with
  | zero => intro start h1 h2; omega
  | succ n ih =>
    intro start h1 h2
    by_cases hc : start + M < L
    · have he : min (start + M) L = start + M := by omega
      obtain ⟨rest, hrest, hhead, hlen, hchain⟩ :=
        ih (start + M - O) (by omega) (by omega)
      refine ⟨(start, start + M) :: rest, ?_, ?_, ?_, ?_⟩
      · simp only [chunkLoopR, if_pos h1, he, if_neg (by omega : ¬ L ≤ start + M),
          hrest]
      · rw [he]; rfl
      · rw [List.length_cons, if_pos hc]
        by_cases hc2 : start + M - O + M < L
        · rw [if_pos hc2] at hlen
          have hX : L - start - O + (M - O) - 1 =
              (L - (start + M - O) - O + (M - O) - 1) + (M - O) := by omega
          rw [hX, Nat.add_div_right _ (by omega : 0 < M - O), hlen]
        · rw [if_neg hc2] at hlen
          have h2eq : (L - start - O + (M - O) - 1) / (M - O) = 2 :=
            Nat.div_eq_of_lt_le (by omega) (by omega)
          rw [h2eq, hlen]
      · rw [List.chain'_cons']
        refine ⟨?_, hchain⟩
        intro y hy
        rw [hhead] at hy
        simp only [Option.mem_def, Option.some.injEq] at hy
        subst hy
        simp only [overlapsBy]
        refine ⟨by omega, by omega, ?_, by omega⟩
        omega
    · have he : min (start + M) L = L := by omega
      refine ⟨[(start, min (start + M) L)], ?_, rfl, ?_, ?_⟩
      · simp only [chunkLoopR, if_pos h1, he, if_pos (le_refl L)]
      · rw [List.length_singleton, if_neg hc]
      · exact List.chain'_singleton _

/-! ## Normalization lemmas -/

/-- No two adjacent characters are both whitespace. -/
def noTwoAdjWS (l : List Char) : Prop :=
  l.Chain' (fun a b => ¬(isSpace a = true ∧ isSpace b = true))

lemma collapseAux_cons_sp_t {c : Char} (h : isSpace c = true)
    (cs : List Char) : collapseAux true (c :: cs) = collapseAux true cs := by
  simp [collapseAux, h]

lemma collapseAux_cons_sp_f {c : Char} (h : isSpace c = true)
    (cs : List Char) :
    collapseAux false (c :: cs) = ' ' :: collapseAux true cs := by
  simp [collapseAux, h]

lemma collapseAux_cons_nsp {c : Char} (h : isSpace c = false) (b : Bool)
    (cs : List Char) : collapseAux b (c :: cs) = c :: collapseAux false cs := by
  simp [collapseAux, h]

/-- After collapsing, every whitespace character is a plain space. -/
lemma mem_collapseAux_space :
    ∀ (cs : List Char) (b : Bool) (c : Char), c ∈ collapseAux b cs →
      isSpace c = true → c = ' ' := by
  intro cs
  induction cs with
  | nil => intro b c hc; simp [collapseAux] at hc
  | cons d t ih =>
    intro b c hc hsp
    by_cases hd : isSpace d
    · rcases b with _ | _
      · rw [collapseAux_cons_sp_f hd] at hc
        rcases List.mem_cons.mp hc with h | h
        · exact h
        · exact ih true c h hsp
      · rw [collapseAux_cons_sp_t hd] at hc
        exact ih true c hc hsp
    · rw [collapseAux_cons_nsp (by simpa using hd)] at hc
      rcases List.mem_cons.mp hc with h | h
      · subst h; simp [hsp] at hd
      · exact ih false c h hsp

/-- In flag-`true` state (inside a whitespace run) the next emitted
character is never whitespace. -/
lemma collapseAux_true_head :
    ∀ (cs : List Char) (c : Char), (collapseAux true cs).head? = some c →
      isSpace c = false := by
  intro cs
  induction cs with
  | nil => intro c hc; simp [collapseAux] at hc
  | cons d t ih =>
    intro c hc
    by_cases hd : isSpace d
    · rw [collapseAux_cons_sp_t hd] at hc
      exact ih c hc
    · rw [collapseAux_cons_nsp (by simpa using hd)] at hc
      simp only [List.head?_cons, Option.some.injEq] at hc
      subst hc
      simpa using hd

/-- The collapsed character list has no two adjacent whitespace
characters. -/
lemma collapseAux_chain :
    ∀ (cs : List Char) (b : Bool), noTwoAdjWS (collapseAux b cs) := by
  intro cs
  induction cs with
  | nil => intro b; simp [collapseAux, noTwoAdjWS]
  | cons d t ih =>
    intro b
    by_cases hd : isSpace d
    · rcases b with _ | _
      · rw [collapseAux_cons_sp_f hd, noTwoAdjWS, List.chain'_cons']
        refine ⟨?_, ih true⟩
        intro y hy
        have := collapseAux_true_head t y hy
        simp [this]
      · rw [collapseAux_cons_sp_t hd]
        exact ih true
    · rw [collapseAux_cons_nsp (by simpa using hd), noTwoAdjWS,
        List.chain'_cons']
      refine ⟨?_, ih false⟩
      intro y _
      simp [hd]

/-- Stripping both ends gives an infix segment. -/
lemma stripChars_infix (l : List Char) : stripChars l <:+: l := by
  unfold stripChars
  have h1 : ((l.dropWhile isSpace).reverse.dropWhile isSpace).reverse <+:
      l.dropWhile isSpace := by
    have h2 := List.dropWhile_suffix (l := (l.dropWhile isSpace).reverse)
      isSpace
    have h3 := List.reverse_prefix.mpr h2
    rwa [List.reverse_reverse] at h3
  exact h1.isInfix.trans (List.dropWhile_suffix isSpace).isInfix

/-- A list whose head does not satisfy `p` is unchanged by
`dropWhile p`. -/
lemma dropWhile_eq_self_of_head {p : Char → Bool} :
    ∀ (l : List Char), (∀ c, l.head? = some c → p c = false) →
      l.dropWhile p = l := by
  intro l h
  cases l with
  | nil => rfl
  | cons c t =>
    have := h c rfl
    simp [List.dropWhile_cons, this]

/-- The head of `dropWhile isSpace` is never whitespace. -/
lemma dropWhile_space_head :
    ∀ (l : List Char) (c : Char), (l.dropWhile isSpace).head? = some c →
      isSpace c = false := by
  intro l
  induction l with
  | nil => intro c hc; simp at hc
  | cons d t ih =>
    intro c hc
    by_cases hd : isSpace d
    · rw [List.dropWhile_cons, if_pos hd] at hc
      exact ih c hc
    · rw [List.dropWhile_cons, if_neg hd] at hc
      simp only [List.head?_cons, Option.some.injEq] at hc
      subst hc
      simpa using hd

/-- `str.strip()` is idempotent. -/
lemma stripChars_idem (l : List Char) :
    stripChars (stripChars l) = stripChars l := by
  have hfront : (stripChars l).dropWhile isSpace = stripChars l := by
    apply dropWhile_eq_self_of_head
    intro c hc
    unfold stripChars at hc
    obtain ⟨t, ht⟩ := by
      have h1 : ((l.dropWhile isSpace).reverse.dropWhile isSpace).reverse <+:
          l.dropWhile isSpace := by
        have h2 := List.dropWhile_suffix (l := (l.dropWhile isSpace).reverse)
          isSpace
        have h3 := List.reverse_prefix.mpr h2
        rwa [List.reverse_reverse] at h3
      exact h1
    apply dropWhile_space_head l c
    rw [← ht]
    cases hx : ((l.dropWhile isSpace).reverse.dropWhile isSpace).reverse with
    | nil => rw [hx] at hc; simp at hc
    | cons x xs =>
      rw [hx] at hc
      simp only [List.head?_cons, Option.some.injEq] at hc
      subst hc
      simp
  have hback : ((stripChars l).reverse).dropWhile isSpace =
      (stripChars l).reverse := by
    apply dropWhile_eq_self_of_head
    intro c hc
    unfold stripChars at hc
    rw [List.reverse_reverse] at hc
    exact dropWhile_space_head (l.dropWhile isSpace).reverse c hc
  show (((stripChars l).dropWhile isSpace).reverse.dropWhile isSpace).reverse =
    stripChars l
  rw [hfront, hback, List.reverse_reverse]

/-- On a list with no adjacent whitespace pair whose whitespace
characters are all plain spaces, collapsing is the identity (for the
flag-`true` state, provided the head is not whitespace). -/
lemma collapseAux_fix :
    ∀ (l : List Char), (∀ c ∈ l, isSpace c = true → c = ' ') →
      noTwoAdjWS l → collapseAux false l = l := by
  intro l
  induction l with
  | nil => intro _ _; rfl
  | cons d t ih =>
    intro hall hchain
    have htail := ih (fun c hc h => hall c (List.mem_cons_of_mem d hc) h)
      (by rw [noTwoAdjWS] at hchain ⊢; exact hchain.tail)
    by_cases hd : isSpace d
    · have hd' : d = ' ' := hall d (List.mem_cons_self d t) hd
      rw [collapseAux_cons_sp_f hd]
      have htrue : collapseAux true t = t := by
        cases t with
        | nil => rfl
        | cons x xs =>
          have hx : isSpace x = false := by
            rw [noTwoAdjWS, List.chain'_cons] at hchain
            by_contra hxx
            simp only [Bool.not_eq_false] at hxx
            exact hchain.1 ⟨hd, hxx⟩
          rw [collapseAux_cons_nsp hx] at htail ⊢
          exact htail
      rw [htrue, hd']
    · rw [collapseAux_cons_nsp (by simpa using hd), htail]

/-! ## Pipeline lemmas -/

/-- Every document built from a page carries the page's number and the
metadata extracted once from the page's text. -/
lemma mem_pageDocs {mid : String} {p : Page} {d : Ingest.IndexedDoc}
    (hd : d ∈ Ingest.pageDocs mid p) :
    d.page = p.page ∧ d.«section» = Ingest.infer_section p.text ∧
      d.chapter = Ingest.infer_chapter p.text ∧
      d.part_number = Ingest.infer_part_number p.text ∧ d.manual_id = mid := by
  simp only [Ingest.pageDocs] at hd
  cases hx : Ingest.chunk_text p.text 800 120 with
  | none => rw [hx] at hd; simp at hd
  | some chunks =>
    rw [hx] at hd
    simp only [List.mem_map] at hd
    obtain ⟨chunk, _, rfl⟩ := hd
    exact ⟨rfl, rfl, rfl, rfl, rfl⟩

/-- Processor analogue of `mem_pageDocs`. -/
lemma mem_procPageDocs {mid : String} {p : Page} {d : Processor.ProcDoc}
    (hd : d ∈ Processor.procPageDocs mid p) :
    d.page = p.page ∧
      d.«section» = (Processor.extract_metadata p.text).«section» ∧
      d.ata_chapter = (Processor.extract_metadata p.text).ata_chapter ∧
      d.part_number = (Processor.extract_metadata p.text).part_number ∧
      d.manual_id = mid := by
  simp only [Processor.procPageDocs] at hd
  cases hx : Processor.chunk_text p.text 800 120 with
  | none => rw [hx] at hd; simp at hd
  | some chunks =>
    rw [hx] at hd
    simp only [List.mem_map] at hd
    obtain ⟨chunk, _, rfl⟩ := hd
    exact ⟨rfl, rfl, rfl, rfl, rfl⟩

lemma extractAux_page_le (raws : List String) :
    ∀ (i : Nat), ∀ p ∈ Ingest.extractAux i raws, i ≤ p.page := by
  induction raws with
  | nil => intro i p hp; simp [Ingest.extractAux] at hp
  | cons raw rest ih =>
    intro i p hp
    simp only [Ingest.extractAux] at hp
    by_cases h : normalize raw = ""
    · rw [if_pos h] at hp
      exact le_trans (by omega) (ih (i + 1) p hp)
    · rw [if_neg h] at hp
      rcases List.mem_cons.mp hp with h1 | h1
      · subst h1; exact le_refl _
      · exact le_trans (by omega) (ih (i + 1) p h1)

/-- The extracted pages have strictly increasing page numbers. -/
lemma extractAux_pairwise (raws : List String) :
    ∀ (i : Nat),
      (Ingest.extractAux i raws).Pairwise (fun a b => a.page < b.page) := by
  induction raws with
  | nil => intro i; simp [Ingest.extractAux]
  | cons raw rest ih =>
    intro i
    simp only [Ingest.extractAux]
    by_cases h : normalize raw = ""
    · rw [if_pos h]; exact ih (i + 1)
    · rw [if_neg h]
      refine List.Pairwise.cons ?_ (ih (i + 1))
      intro q hq
      have := extractAux_page_le rest (i + 1) q hq
      simp only []
      omega

lemma parseAux_page_le (raws : List String) :
    ∀ (i : Nat), ∀ p ∈ Processor.parseAux i raws, i ≤ p.page := by
  induction raws with
  | nil => intro i p hp; simp [Processor.parseAux] at hp
  | cons raw rest ih =>
    intro i p hp
    simp only [Processor.parseAux] at hp
    by_cases h : raw = ""
    · rw [if_pos h] at hp
      exact le_trans (by omega) (ih (i + 1) p hp)
    · rw [if_neg h] at hp
      rcases List.mem_cons.mp hp with h1 | h1
      · subst h1; exact le_refl _
      · exact le_trans (by omega) (ih (i + 1) p h1)

/-- The parsed pages have strictly increasing page numbers. -/
lemma parseAux_pairwise (raws : List String) :
    ∀ (i : Nat),
      (Processor.parseAux i raws).Pairwise (fun a b => a.page < b.page) := by
  induction raws with
  | nil => intro i; simp [Processor.parseAux]
  | cons raw rest ih =>
    intro i
    simp only [Processor.parseAux]
    by_cases h : raw = ""
    · rw [if_pos h]; exact ih (i + 1)
    · rw [if_neg h]
      refine List.Pairwise.cons ?_ (ih (i + 1))
      intro q hq
      have := parseAux_page_le rest (i + 1) q hq
      simp only []
      omega

/-- Membership in the ingestion batch comes from some extracted page. -/
lemma mem_index_pdf {raws : List String} {mid : String}
    {d : Ingest.IndexedDoc} (hd : d ∈ (Ingest.index_pdf raws mid).1) :
    ∃ p ∈ Ingest.extract_text_by_page raws, d ∈ Ingest.pageDocs mid p := by
  simp only [Ingest.index_pdf, List.mem_flatten, List.mem_map] at hd
  obtain ⟨l, ⟨p, hp, rfl⟩, hdl⟩ := hd
  exact ⟨p, hp, hdl⟩

/-- Membership in the processor batch comes from some parsed page. -/
lemma mem_process_manual {raws : List String} {mid : String}
    {d : Processor.ProcDoc} (hd : d ∈ (Processor.process_manual raws mid).1) :
    ∃ p ∈ Processor.parse_pdf raws, d ∈ Processor.procPageDocs mid p := by
  simp only [Processor.process_manual, List.mem_flatten, List.mem_map] at hd
  obtain ⟨l, ⟨p, hp, rfl⟩, hdl⟩ := hd
  exact ⟨p, hp, hdl⟩

/-- Two extracted pages with the same page number are the same page. -/
lemma extract_page_inj {raws : List String} {p q : Page}
    (hp : p ∈ Ingest.extract_text_by_page raws)
    (hq : q ∈ Ingest.extract_text_by_page raws) (hpq : p.page = q.page) :
    p = q := by
  have hnd : ((Ingest.extract_text_by_page raws).map Page.page).Nodup :=
    List.Pairwise.map Page.page (fun a b h => Nat.ne_of_lt h)
      (extractAux_pairwise raws 1)
  exact List.inj_on_of_nodup_map hnd hp hq hpq

/-- Two parsed pages with the same page number are the same page. -/
lemma parse_page_inj {raws : List String} {p q : Page}
    (hp : p ∈ Processor.parse_pdf raws) (hq : q ∈ Processor.parse_pdf raws)
    (hpq : p.page = q.page) : p = q := by
  have hnd : ((Processor.parse_pdf raws).map Page.page).Nodup :=
    List.Pairwise.map Page.page (fun a b h => Nat.ne_of_lt h)
      (parseAux_pairwise raws 1)
  exact List.inj_on_of_nodup_map hnd hp hq hpq

/-! ## Claim theorems -/

/-- A 51-word page text (the smallest page that survives the chunk
filter at the default configuration). -/
def w51 : String := String.intercalate " " (List.replicate 51 "w")

/-- A 50-word page text (filtered out entirely). -/
def w50 : String := String.intercalate " " (List.replicate 50 "w")

/-- C1 counterexample: the claimed chunk-count formula says a word
sequence of length `L ≤ M` yields exactly one chunk, but on empty input
(`L = 0`) the loop body never runs and `chunk_text` yields zero chunks,
in both scripts, both before and after the small-fragment filter. -/
theorem chunk_text_empty_input_counterexample :
    Ingest.chunk_text "" 800 120 = some [] ∧
    Processor.chunk_text "" 800 120 = some [] ∧
    Ingest.chunkLoop (splitWords "") 800 120 ((splitWords "").length + 1) 0 =
      some [] ∧
    (0 : Nat) ≠ 1 := by decide

/-- C1 amended: for every nonempty word sequence of length `L` and
`O < M`, the loop generates (before the `> 50`-word filter) exactly
`ceil((L-O)/(M-O))` chunks when `L > M` and exactly one chunk otherwise,
and every pair of consecutive generated word ranges overlaps by exactly
`O` word indices; the chunk strings are the slices-joined images of
those ranges. -/
theorem chunk_generation_count_and_overlap (words : List String) (M O : Nat)
    (hMO : O < M) (hL : 0 < words.length) :
    ∃ rs, chunkLoopR words.length M O (words.length + 1) 0 = some rs ∧
      Ingest.chunkLoop words M O (words.length + 1) 0 =
        some (rs.map (fun r => sliceJoin words r.1 r.2)) ∧
      rs.length = (if M < words.length then
          (words.length - O + (M - O) - 1) / (M - O) else 1) ∧
      rs.Chain' (overlapsBy O) := by
  obtain ⟨rs, h1, _, h3, h4⟩ :=
    chunkLoopR_spec words.length M O hMO (words.length + 1) 0 hL (by omega)
  refine ⟨rs, h1, ?_, ?_, h4⟩
  · rw [chunkLoop_eq_ranges, h1]
    rfl
  · simpa using h3

/-- C1 witness: on the three-word sequence with `M = 2`, `O = 1`, the
loop generates `ceil((3-1)/(2-1)) = 2` ranges, consecutive and
overlapping by one word. -/
theorem chunk_generation_count_and_overlap_witness :
    ∃ rs, chunkLoopR 3 2 1 4 0 = some rs ∧ rs.length = 2 ∧
      rs.Chain' (overlapsBy 1) := by
  obtain ⟨rs, h1, _, h3, h4⟩ :=
    chunk_generation_count_and_overlap ["a", "b", "c"] 2 1 (by decide)
      (by decide)
  exact ⟨rs, h1, h3.trans (by decide), h4⟩

/-- C2: with a valid configuration (`overlap < max_words`), `chunk_text`
terminates on every input in both scripts — the cursor strictly advances
on every iteration that does not emit the final range, so fuel
`len(words) + 1` always suffices. -/
theorem chunk_text_terminates (text : String) (M O : Nat) (hMO : O < M) :
    (Ingest.chunk_text text M O).isSome ∧
      (Processor.chunk_text text M O).isSome := by
  have h := chunkLoop_isSome (splitWords text) M O hMO
    ((splitWords text).length + 1) 0 (by omega)
  have hI : (Ingest.chunk_text text M O).isSome := by
    simp only [Ingest.chunk_text]
    cases hx : Ingest.chunkLoop (splitWords text) M O
        ((splitWords text).length + 1) 0 with
    | none => rw [hx] at h; simp at h
    | some chunks => rfl
  rw [chunk_text_eq]
  exact ⟨hI, hI⟩

/-- C2 witness: the default-shaped configuration terminates on a
concrete input. -/
theorem chunk_text_terminates_witness :
    (Ingest.chunk_text "hello world" 800 120).isSome ∧
      (Processor.chunk_text "hello world" 800 120).isSome :=
  chunk_text_terminates "hello world" 800 120 (by decide)

/-- C3: on the invalid configuration `overlap = max_words = 1` and the
two-word input `"a b"`, the loop never terminates — the cursor is reset
to `0` on every iteration, so no amount of fuel yields a result; no
validation rejects the configuration at call time. -/
theorem chunk_text_invalid_config_diverges :
    (∀ fuel, Ingest.chunkLoop (splitWords "a b") 1 1 fuel 0 = none) ∧
    Ingest.chunk_text "a b" 1 1 = none ∧
    Processor.chunk_text "a b" 1 1 = none := by
  have key : ∀ fuel, Ingest.chunkLoop ["a", "b"] 1 1 fuel 0 = none := by
    intro fuel
    induction fuel with
    | zero => rfl
    | succ n ih => simp [Ingest.chunkLoop, ih]
  have hw : splitWords "a b" = ["a", "b"] := by decide
  exact ⟨fun fuel => by rw [hw]; exact key fuel, by decide, by decide⟩

/-- C3 witness: no concrete amount of fuel (here 5) makes the invalid
configuration terminate. -/
theorem chunk_text_invalid_config_diverges_witness :
    Ingest.chunkLoop (splitWords "a b") 1 1 5 0 = none :=
  chunk_text_invalid_config_diverges.1 5

/-- C4: every chunk returned by `chunk_text` (either script, any
configuration) has strictly more than 50 whitespace-delimited words;
with the default configuration a 50-word page yields zero chunks and a
51-word page yields exactly one chunk. -/
theorem chunk_text_min_word_filter :
    (∀ (text : String) (M O : Nat) (cs : List String),
        Ingest.chunk_text text M O = some cs →
        ∀ c ∈ cs, 50 < (splitWords c).length) ∧
    (∀ (text : String) (M O : Nat) (cs : List String),
        Processor.chunk_text text M O = some cs →
        ∀ c ∈ cs, 50 < (splitWords c).length) ∧
    Ingest.chunk_text w50 800 120 = some [] ∧
    (Ingest.chunk_text w51 800 120).map List.length = some 1 := by
  have hI : ∀ (text : String) (M O : Nat) (cs : List String),
      Ingest.chunk_text text M O = some cs →
      ∀ c ∈ cs, 50 < (splitWords c).length := by
    intro text M O cs h c hc
    simp only [Ingest.chunk_text] at h
    cases hx : Ingest.chunkLoop (splitWords text) M O
        ((splitWords text).length + 1) 0 with
    | none => rw [hx] at h; simp at h
    | some chunks =>
      rw [hx] at h
      simp only [Option.some.injEq] at h
      subst h
      simp only [List.mem_filter] at hc
      exact of_decide_eq_true hc.2
  refine ⟨hI, ?_, by decide, by decide⟩
  intro text M O cs h
  rw [chunk_text_eq] at h
  exact hI text M O cs h

/-- C4 witness: the single chunk of the 51-word page indeed has more
than 50 words. -/
theorem chunk_text_min_word_filter_witness :
    50 < (splitWords w51).length :=
  chunk_text_min_word_filter.1 w51 800 120 [w51] (by decide) w51 (by decide)

/-- The normalized string has no two consecutive whitespace
characters. -/
def noConsecutiveWS (s : String) : Prop := noTwoAdjWS s.data

/-- C5: normalization (`re.sub(r"\s+", " ", text).strip()`) is
idempotent, and its output never contains two consecutive whitespace
characters. -/
theorem normalize_idempotent_no_consec_ws (s : String) :
    normalize (normalize s) = normalize s ∧ noConsecutiveWS (normalize s) := by
  have hCo := collapseAux_chain s.data false
  have hinf := stripChars_infix (collapseAux false s.data)
  have hchain : noTwoAdjWS (stripChars (collapseAux false s.data)) := by
    rw [noTwoAdjWS] at hCo ⊢
    exact hCo.infix hinf
  constructor
  · show String.mk (stripChars (collapseAux false
        (stripChars (collapseAux false s.data)))) =
      String.mk (stripChars (collapseAux false s.data))
    congr 1
    have hall : ∀ c ∈ stripChars (collapseAux false s.data),
        isSpace c = true → c = ' ' := fun c hc h =>
      mem_collapseAux_space s.data false c (hinf.sublist.subset hc) h
    rw [collapseAux_fix _ hall hchain]
    exact stripChars_idem _
  · exact hchain

/-- C5 witness: idempotence at a concrete messy input. -/
theorem normalize_idempotent_no_consec_ws_witness :
    normalize (normalize " a \t b ") = normalize " a \t b " :=
  (normalize_idempotent_no_consec_ws " a \t b ").1

/-- C6 counterexample: on a text with a bare `ATA 12` before an
`ATA Chapter 34`, the processor script's chapter rule (one combined
regex `ATA\s*(?:Chapter\s*)?\d{2}`, leftmost match wins) returns
`"ATA 12"`, not the `ATA Chapter` match the claim requires. -/
theorem ata_combined_leftmost_counterexample :
    (Processor.extract_metadata "ATA 12 and ATA Chapter 34").ata_chapter =
      "ATA 12" ∧
    ("ATA 12" : String) ≠ "ATA Chapter 34" := by decide

/-- C6 amended: in the ingest script's `infer_chapter` the two pattern
variants are tried in order — `ATA Chapter NN` before bare `ATA NN` —
and the result is the (stripped) match of the first variant that
succeeds, not the leftmost occurrence in the text: on
`"ATA 12 and ATA Chapter 34"` it returns `"ATA Chapter 34"`. -/
theorem infer_chapter_ordered_variants :
    (∀ (text m : String), searchStr ataChapterAt text = some m →
        Ingest.infer_chapter text = stripStr m) ∧
    (∀ (text m : String), searchStr ataChapterAt text = none →
        searchStr ataBareAt text = some m →
        Ingest.infer_chapter text = stripStr m) ∧
    Ingest.infer_chapter "ATA 12 and ATA Chapter 34" = "ATA Chapter 34" := by
  refine ⟨?_, ?_, by decide⟩
  · intro text m h
    simp only [Ingest.infer_chapter, h]
  · intro text m h1 h2
    simp only [Ingest.infer_chapter, h1, h2]

/-- C6 witness: the ordered-attempt rule applied to the concrete
two-occurrence text. -/
theorem infer_chapter_ordered_variants_witness :
    Ingest.infer_chapter "ATA 12 and ATA Chapter 34" =
      stripStr "ATA Chapter 34" :=
  infer_chapter_ordered_variants.1 "ATA 12 and ATA Chapter 34"
    "ATA Chapter 34" (by decide)

/-- C7 counterexample: on `"SECTION 3.2: Engine Systems details..."`
the section regex's trailing class `[A-Za-z0-9\-\s]+` greedily
continues through `" details"` and stops only at the first `"."`, so
both scripts return `"SECTION 3.2: Engine Systems details"`, not the
claimed `"SECTION 3.2: Engine Systems"`. -/
theorem section_extraction_counterexample :
    Ingest.infer_section "SECTION 3.2: Engine Systems details..." =
      "SECTION 3.2: Engine Systems details" ∧
    (Processor.extract_metadata
        "SECTION 3.2: Engine Systems details...").«section» =
      "SECTION 3.2: Engine Systems details" ∧
    ("SECTION 3.2: Engine Systems details" : String) ≠
      "SECTION 3.2: Engine Systems" := by decide

/-- C7 amended: metadata extraction on
`"SECTION 3.2: Engine Systems details..."` returns section
`"SECTION 3.2: Engine Systems details"` (the match extends through the
following word characters and whitespace up to the first character
outside `[A-Za-z0-9\-\s]`, here the first dot), chapter `""` and
part number `""`, in both scripts. -/
theorem metadata_on_section_example :
    Processor.extract_metadata "SECTION 3.2: Engine Systems details..." =
      { «section» := "SECTION 3.2: Engine Systems details",
        ata_chapter := "", part_number := "" } ∧
    Ingest.infer_section "SECTION 3.2: Engine Systems details..." =
      "SECTION 3.2: Engine Systems details" ∧
    Ingest.infer_chapter "SECTION 3.2: Engine Systems details..." = "" ∧
    Ingest.infer_part_number "SECTION 3.2: Engine Systems details..." = "" := by
  decide

/-- C8: each indexed document's metadata triple is the page-level
extraction of the page the document's chunks came from (computed once
per page, not re-extracted per chunk), so any two documents with the
same page number carry the identical metadata triple — in both the
ingest pipeline (`index_pdf`) and the processor pipeline
(`process_manual`). -/
theorem metadata_once_per_page :
    (∀ (raws : List String) (mid : String) (d : Ingest.IndexedDoc),
        d ∈ (Ingest.index_pdf raws mid).1 →
        ∃ p ∈ Ingest.extract_text_by_page raws,
          d.page = p.page ∧ d.«section» = Ingest.infer_section p.text ∧
            d.chapter = Ingest.infer_chapter p.text ∧
            d.part_number = Ingest.infer_part_number p.text) ∧
    (∀ (raws : List String) (mid : String) (d1 d2 : Ingest.IndexedDoc),
        d1 ∈ (Ingest.index_pdf raws mid).1 →
        d2 ∈ (Ingest.index_pdf raws mid).1 → d1.page = d2.page →
        d1.«section» = d2.«section» ∧ d1.chapter = d2.chapter ∧
          d1.part_number = d2.part_number) ∧
    (∀ (raws : List String) (mid : String) (d1 d2 : Processor.ProcDoc),
        d1 ∈ (Processor.process_manual raws mid).1 →
        d2 ∈ (Processor.process_manual raws mid).1 → d1.page = d2.page →
        d1.«section» = d2.«section» ∧ d1.ata_chapter = d2.ata_chapter ∧
          d1.part_number = d2.part_number) := by
  refine ⟨?_, ?_, ?_⟩
  · intro raws mid d hd
    obtain ⟨p, hp, hdp⟩ := mem_index_pdf hd
    obtain ⟨h1, h2, h3, h4, _⟩ := mem_pageDocs hdp
    exact ⟨p, hp, h1, h2, h3, h4⟩
  · intro raws mid d1 d2 h1 h2 hpg
    obtain ⟨p1, hp1, hd1⟩ := mem_index_pdf h1
    obtain ⟨p2, hp2, hd2⟩ := mem_index_pdf h2
    obtain ⟨e1, e2, e3, e4, _⟩ := mem_pageDocs hd1
    obtain ⟨f1, f2, f3, f4, _⟩ := mem_pageDocs hd2
    have hpp : p1 = p2 := extract_page_inj hp1 hp2 (by omega)
    subst hpp
    exact ⟨by rw [e2, f2], by rw [e3, f3], by rw [e4, f4]⟩
  · intro raws mid d1 d2 h1 h2 hpg
    obtain ⟨p1, hp1, hd1⟩ := mem_process_manual h1
    obtain ⟨p2, hp2, hd2⟩ := mem_process_manual h2
    obtain ⟨e1, e2, e3, e4, _⟩ := mem_procPageDocs hd1
    obtain ⟨f1, f2, f3, f4, _⟩ := mem_procPageDocs hd2
    have hpp : p1 = p2 := parse_page_inj hp1 hp2 (by omega)
    subst hpp
    exact ⟨by rw [e2, f2], by rw [e3, f3], by rw [e4, f4]⟩

/-- C8 witness: the document built from the one-page 51-word manual
comes from page 1 carrying that page's extraction. -/
theorem metadata_once_per_page_witness :
    ∃ p ∈ Ingest.extract_text_by_page [w51], p.page = 1 := by
  obtain ⟨p, hp, h1, _⟩ := metadata_once_per_page.1 [w51] "M"
    { content := w51, «section» := "", chapter := "", part_number := "",
      manual_id := "M", page := 1 } (by decide)
  exact ⟨p, hp, h1.symm⟩

/-- C9 counterexample: on a 3-page manual whose page 2 extracts to
empty text, `index_pdf`'s observable outputs are the document batch
(from pages 1 and 3 only), the chunk count 2 and the non-empty page
count 2; the Python function returns `None` and no output carries the
claimed skipped-page count of 1. -/
theorem index_pdf_no_skipped_count_counterexample :
    Ingest.index_pdf [w51, "", w51] "M" =
      ([{ content := w51, «section» := "", chapter := "", part_number := "",
          manual_id := "M", page := 1 },
        { content := w51, «section» := "", chapter := "", part_number := "",
          manual_id := "M", page := 3 }], 2, 2) ∧
    (2 : Nat) ≠ 1 := by decide

/-- C9 amended: ingesting the 3-page manual with empty page 2 produces
documents exactly from pages 1 and 3; the reported numbers are the
chunk count (equal to the number of documents indexed) and the number
of non-empty pages, and no skipped-page count is computed. -/
theorem index_pdf_report_amended :
    (Ingest.index_pdf [w51, "", w51] "M").1.map Ingest.IndexedDoc.page =
      [1, 3] ∧
    (Ingest.index_pdf [w51, "", w51] "M").2.1 = 2 ∧
    (Ingest.index_pdf [w51, "", w51] "M").2.2 = 2 ∧
    (∀ (raws : List String) (mid : String),
        (Ingest.index_pdf raws mid).2.1 =
          (Ingest.index_pdf raws mid).1.length) := by
  refine ⟨by decide, by decide, by decide, fun raws mid => rfl⟩

/-- C9 witness: the reported chunk count equals the batch size at a
concrete input. -/
theorem index_pdf_report_amended_witness :
    (Ingest.index_pdf [w51] "m").2.1 = (Ingest.index_pdf [w51] "m").1.length :=
  index_pdf_report_amended.2.2.2 [w51] "m"

/-- C10: the `chunk_text` functions of the two scripts are
extensionally equal — same chunks for every input text and every
`(max_words, overlap)` configuration (including the divergence marker
on non-terminating configurations). -/
theorem chunk_text_implementations_equal (text : String) (mw ov : Nat) :
    Processor.chunk_text text mw ov = Ingest.chunk_text text mw ov :=
  chunk_text_eq text mw ov

/-- C10 witness: both implementations at a concrete input and
configuration. -/
theorem chunk_text_implementations_equal_witness :
    Processor.chunk_text "a b c" 2 1 = Ingest.chunk_text "a b c" 2 1 :=
  chunk_text_implementations_equal "a b c" 2 1

end AviationRag
